import Mathlib

/-!
# Verification of the federated CartPole REINFORCE training notebook

Shallow embedding of the notebook
`examples/experimental/Federated Learning Reinforcement Learning Agent.ipynb`.
Numeric tensors are modelled as rational vectors (`List ℚ`); the exact
rational arithmetic idealizes the notebook's floating-point arithmetic.
The PySyft `VirtualWorker` object store (the library implementation is not
part of the source tree) is modelled from the spec as a handle-indexed store
with move-only `send`/`retrieve`/`clear` operations.  The neural-network
forward pass, the categorical sampler and the environment are the spec's
external collaborators and enter as opaque function parameters.
-/

set_option linter.unusedVariables false

namespace FLRL

/-- Numeric tensors are rational vectors. -/
abbrev Tensor := List ℚ

/-! ## Return Normalizer (`discount_and_normailze_rewards`) -/

/-- The loop body of `discount_and_normailze_rewards`:
`for reward in rewards[::-1]: cumulative = reward + γ*cumulative;
discounted.insert(0, cumulative)`.  The accumulator is the pair
(`cumulative_rewards`, `discounted_rewards`). -/
def discountAux (γ : ℚ) : List ℚ → ℚ × List ℚ → ℚ × List ℚ
  | [], acc => acc
  | r :: rest, (c, ds) => discountAux γ rest (r + γ * c, (r + γ * c) :: ds)

/-- First half of `discount_and_normailze_rewards`: the discounted returns
`G`, computed by iterating over `rewards[::-1]` starting from
`cumulative_rewards = 0` and inserting each new cumulative value at the
front of the result list. -/
def discountedRewards (γ : ℚ) (rewards : List ℚ) : List ℚ :=
  (discountAux γ rewards.reverse (0, [])).2

/-- `tensor.mean()`: the arithmetic mean of the entries. -/
def listMean (xs : List ℚ) : ℚ := xs.sum / xs.length

/-- `tensor.std()` squared: torch's default is the unbiased sample variance,
with denominator `n - 1`.  For `n = 1` the real code divides `0` by `0`
(torch yields NaN); in `ℚ` that division is the junk value `0`, so claims
about the degenerate case are stated through `normalizationDefined` below. -/
def sampleVariance (xs : List ℚ) : ℚ :=
  (xs.map (fun x => (x - listMean xs) ^ 2)).sum / ((xs.length : ℚ) - 1)

/-- Second half of `discount_and_normailze_rewards`:
`(discounted - discounted.mean()) / discounted.std()`.  The standard
deviation `s` (the nonnegative square root of `sampleVariance`, which is
irrational in general) is passed as a parameter constrained by
`s ^ 2 = sampleVariance` in the theorems. -/
def discount_and_normailze_rewards (γ : ℚ) (rewards : List ℚ) (s : ℚ) : List ℚ :=
  (discountedRewards γ rewards).map
    (fun d => (d - listMean (discountedRewards γ rewards)) / s)

/-- The normalization step of the source divides by `discounted.std()` with
no guard whatsoever: it is well defined exactly when the variance
denominator `n - 1` is nonzero (`n ≥ 2`) and the variance itself is
nonzero. -/
def normalizationDefined (γ : ℚ) (rewards : List ℚ) : Prop :=
  2 ≤ (discountedRewards γ rewards).length ∧
    sampleVariance (discountedRewards γ rewards) ≠ 0

/-! ### Structural characterization of the discounting loop -/

/-- Structural recursion equivalent to the `rewards[::-1]` loop: the head of
the result for `r :: rs` is `r + γ * G₂` where `G₂` heads the result for
`rs`. -/
def discountedRec (γ : ℚ) : List ℚ → List ℚ
  | [] => []
  | r :: rs => (r + γ * (discountedRec γ rs).headD 0) :: discountedRec γ rs

lemma discountAux_append (γ : ℚ) (xs ys : List ℚ) (acc : ℚ × List ℚ) :
    discountAux γ (xs ++ ys) acc = discountAux γ ys (discountAux γ xs acc) := by
  induction xs generalizing acc with
  | nil => rfl
  | cons x t ih =>
    obtain ⟨c, ds⟩ := acc
    simp [discountAux, ih]

lemma discountAux_reverse (γ : ℚ) (rs : List ℚ) :
    discountAux γ rs.reverse (0, []) =
      ((discountedRec γ rs).headD 0, discountedRec γ rs) := by
  induction rs with
  | nil => rfl
  | cons r t ih =>
    rw [List.reverse_cons, discountAux_append, ih]
    simp [discountAux, discountedRec]

lemma discountedRewards_eq_rec (γ : ℚ) (rs : List ℚ) :
    discountedRewards γ rs = discountedRec γ rs := by
  rw [discountedRewards, discountAux_reverse]

@[simp] lemma length_discountedRec (γ : ℚ) (rs : List ℚ) :
    (discountedRec γ rs).length = rs.length := by
  induction rs with
  | nil => rfl
  | cons r t ih => simp [discountedRec, ih]

@[simp] lemma length_discountedRewards (γ : ℚ) (rs : List ℚ) :
    (discountedRewards γ rs).length = rs.length := by
  rw [discountedRewards_eq_rec]; exact length_discountedRec γ rs

lemma getLast?_discountedRec (γ : ℚ) (rs : List ℚ) :
    (discountedRec γ rs).getLast? = rs.getLast? := by
  induction rs with
  | nil => rfl
  | cons r t ih =>
    cases t with
    | nil => simp [discountedRec]
    | cons b u =>
      have h1 : discountedRec γ (r :: b :: u) =
          (r + γ * (discountedRec γ (b :: u)).headD 0) :: discountedRec γ (b :: u) := rfl
      have h2 : discountedRec γ (b :: u) =
          (b + γ * (discountedRec γ u).headD 0) :: discountedRec γ u := rfl
      rw [h1, h2, List.getLast?_cons_cons, List.getLast?_cons_cons, ← h2]
      exact ih

lemma headD_eq_getD (l : List ℚ) : l.headD 0 = l.getD 0 0 := by
  cases l <;> rfl

lemma discountedRec_recurrence (γ : ℚ) (rs : List ℚ) :
    ∀ t, t + 1 < rs.length →
      (discountedRec γ rs).getD t 0 =
        rs.getD t 0 + γ * (discountedRec γ rs).getD (t + 1) 0 := by
  induction rs with
  | nil => intro t ht; simp at ht
  | cons r u ih =>
    intro t ht
    cases t with
    | zero =>
      have hu : u ≠ [] := by
        intro h
        rw [h] at ht
        simp at ht
      cases u with
      | nil => exact absurd rfl hu
      | cons b v => simp [discountedRec, headD_eq_getD]
    | succ m =>
      have hm : m + 1 < u.length := by
        simpa using ht
      simpa [discountedRec] using ih m hm

/-- C1: the discounting step computes `G_T = r_T` and
`G_t = r_t + γ·G_{t+1}` for `t = T−1` down to `1` (the loop walks the
reversed reward list, so the last step is produced first); for rewards
`[1,1,1]` and `γ = 0.95` the pre-normalization returns are
`[2.8525, 1.95, 1.0]`. -/
theorem discount_recurrence (γ : ℚ) (rewards : List ℚ) (h : rewards ≠ []) :
    (discountedRewards γ rewards).length = rewards.length ∧
    (discountedRewards γ rewards).getLast? = rewards.getLast? ∧
    (∀ t, t + 1 < rewards.length →
      (discountedRewards γ rewards).getD t 0 =
        rewards.getD t 0 + γ * (discountedRewards γ rewards).getD (t + 1) 0) ∧
    discountedRewards (19/20) [1, 1, 1] = [2.8525, 1.95, 1] := by
  refine ⟨length_discountedRewards γ rewards, ?_, ?_, ?_⟩
  · rw [discountedRewards_eq_rec]; exact getLast?_discountedRec γ rewards
  · intro t ht
    rw [discountedRewards_eq_rec]
    exact discountedRec_recurrence γ rewards t ht
  · rw [discountedRewards_eq_rec]
    norm_num [discountedRec]

/-- Witness for C1 at rewards `[1,1,1]`, `γ = 19/20`. -/
theorem discount_recurrence_witness :
    ([1, 1, 1] : List ℚ) ≠ [] ∧
      discountedRewards (19/20) [1, 1, 1] = [2.8525, 1.95, 1] :=
  ⟨by simp, (discount_recurrence (19/20) [1, 1, 1] (by simp)).2.2.2⟩

/-- C2: at `T = 1` (rewards `[1]`, `γ = 0.95`) the sample-variance
denominator `n − 1` of `discounted.std()` is zero and the normalization is
undefined — the source has no guard and no fallback policy for this case. -/
theorem degenerate_episode_unguarded :
    ((discountedRewards (19/20) [1]).length : ℚ) - 1 = 0 ∧
      ¬ normalizationDefined (19/20) [1] := by
  constructor
  · simp
  · intro hdef
    have h := hdef.1
    rw [length_discountedRewards] at h
    simp at h

/-! ### Normalization: mean zero, unit variance (C3) -/

lemma sum_map_center_div (l : List ℚ) (μ s : ℚ) :
    (l.map (fun d => (d - μ) / s)).sum = (l.sum - l.length * μ) / s := by
  induction l with
  | nil => simp
  | cons x t ih =>
    simp only [List.map_cons, List.sum_cons, ih, List.length_cons]
    rw [div_add_div_same]
    push_cast
    ring_nf

lemma sum_map_sq_center_div (l : List ℚ) (μ s : ℚ) :
    (l.map (fun d => ((d - μ) / s) ^ 2)).sum =
      (l.map (fun d => (d - μ) ^ 2)).sum / s ^ 2 := by
  induction l with
  | nil => simp
  | cons x t ih =>
    simp only [List.map_cons, List.sum_cons, ih]
    rw [div_pow, div_add_div_same]

lemma centered_sum (l : List ℚ) (h : (l.length : ℚ) ≠ 0) :
    l.sum - l.length * listMean l = 0 := by
  rw [listMean]
  field_simp

lemma normalize_list_spec (l : List ℚ) (s : ℚ) (hT : 2 ≤ l.length)
    (hs : s ^ 2 = sampleVariance l) (hs0 : s ≠ 0) :
    listMean (l.map (fun d => (d - listMean l) / s)) = 0 ∧
    sampleVariance (l.map (fun d => (d - listMean l) / s)) = 1 := by
  have hn0 : (l.length : ℚ) ≠ 0 := by
    have h1 : l.length ≠ 0 := by omega
    exact_mod_cast h1
  have hn1 : (l.length : ℚ) - 1 ≠ 0 := by
    have h2 : (2 : ℚ) ≤ (l.length : ℚ) := by exact_mod_cast hT
    intro h
    have : (l.length : ℚ) = 1 := by linarith
    linarith
  have hmap_sum : (l.map (fun d => (d - listMean l) / s)).sum = 0 := by
    rw [sum_map_center_div, centered_sum l hn0, zero_div]
  have hmean : listMean (l.map (fun d => (d - listMean l) / s)) = 0 := by
    rw [listMean, hmap_sum, zero_div]
  refine ⟨hmean, ?_⟩
  have hsq : (l.map (fun d => (d - listMean l) ^ 2)).sum =
      s ^ 2 * ((l.length : ℚ) - 1) := by
    rw [sampleVariance] at hs
    field_simp at hs
    linarith
  rw [sampleVariance, hmean]
  simp only [sub_zero, List.map_map, Function.comp_def, List.length_map]
  rw [sum_map_sq_center_div, hsq]
  have hs2 : s ^ 2 ≠ 0 := pow_ne_zero 2 hs0
  field_simp

/-- C3: for `T ≥ 2` with well-defined, nonzero standard deviation `s`
(`s² = sampleVariance G`, `s ≠ 0`), the normalized returns
`(G − mean G)/s` have mean `0` and unit (unbiased sample) variance.  In an
actual episode of the notebook every reward is `1` and `γ = 0.95 > 0`, so
the returns are strictly decreasing and the variance is indeed nonzero. -/
theorem normalized_mean_zero_unit_variance (γ s : ℚ) (rewards : List ℚ)
    (hT : 2 ≤ rewards.length)
    (hs : s ^ 2 = sampleVariance (discountedRewards γ rewards))
    (hs0 : s ≠ 0) :
    listMean (discount_and_normailze_rewards γ rewards s) = 0 ∧
    sampleVariance (discount_and_normailze_rewards γ rewards s) = 1 := by
  have hlen : 2 ≤ (discountedRewards γ rewards).length := by
    rw [length_discountedRewards]
    exact hT
  exact normalize_list_spec (discountedRewards γ rewards) s hlen hs hs0

/-- Witness for C3 at rewards `[-1/2, 0, 2]`, `γ = 1/2` (returns
`[0, 1, 2]`, variance `1`, std `s = 1`). -/
theorem normalized_mean_zero_unit_variance_witness :
    2 ≤ ([-1/2, 0, 2] : List ℚ).length ∧
    (1 : ℚ) ^ 2 = sampleVariance (discountedRewards (1/2) [-1/2, 0, 2]) ∧
    (1 : ℚ) ≠ 0 ∧
    (listMean (discount_and_normailze_rewards (1/2) [-1/2, 0, 2] 1) = 0 ∧
     sampleVariance (discount_and_normailze_rewards (1/2) [-1/2, 0, 2] 1) = 1) :=
  ⟨by simp,
   by norm_num [discountedRewards_eq_rec, discountedRec, sampleVariance, listMean],
   by norm_num,
   normalized_mean_zero_unit_variance (1/2) 1 [-1/2, 0, 2] (by simp)
     (by norm_num [discountedRewards_eq_rec, discountedRec, sampleVariance, listMean])
     (by norm_num)⟩

/-! ## Remote Execution Context (spec-modelled ownership store) -/

/-- Modelled from the spec: the PySyft `VirtualWorker`'s object store (the
library implementing `send`/`get`/`clear_objects` is not part of the source
tree).  A context is a mapping from opaque handles to tensors plus a fresh
handle counter; ownership transfer is a move. -/
structure RemoteCtx where
  store : List (ℕ × Tensor)
  next : ℕ
  deriving DecidableEq

/-- Dictionary lookup in the handle store. -/
def storeLookup (h : ℕ) : List (ℕ × Tensor) → Option Tensor
  | [] => none
  | (k, v) :: rest => if h = k then some v else storeLookup h rest

/-- Dictionary deletion (removes the entry of the given handle). -/
def storeErase (h : ℕ) : List (ℕ × Tensor) → List (ℕ × Tensor)
  | [] => []
  | (k, v) :: rest => if h = k then rest else (k, v) :: storeErase h rest

/-- Modelled from the spec: `send` moves a local value into the context
under a fresh handle and returns the handle. -/
def RemoteCtx.send (c : RemoteCtx) (t : Tensor) : RemoteCtx × ℕ :=
  (⟨(c.next, t) :: c.store, c.next + 1⟩, c.next)

/-- Modelled from the spec: `retrieve` (`.get()`) moves the value back to
the local context, destroying the remote copy; `none` models the
`NotFoundError`/`OwnershipError` raised on an unknown or
already-retrieved handle. -/
def RemoteCtx.retrieve (c : RemoteCtx) (h : ℕ) : Option (RemoteCtx × Tensor) :=
  match storeLookup h c.store with
  | some t => some (⟨storeErase h c.store, c.next⟩, t)
  | none => none

/-- Whether the context currently owns the handle. -/
def RemoteCtx.owns (c : RemoteCtx) (h : ℕ) : Bool :=
  (storeLookup h c.store).isSome

/-- Modelled from the spec: `clear_objects` destroys every owned tensor. -/
def RemoteCtx.clear (c : RemoteCtx) : RemoteCtx := ⟨[], c.next⟩

/-- Introspection count of owned tensors. -/
def RemoteCtx.count (c : RemoteCtx) : ℕ := c.store.length

/-- Well-formedness: every allocated handle is below the fresh counter. -/
def RemoteCtx.wf (c : RemoteCtx) : Prop := ∀ p ∈ c.store, p.1 < c.next

lemma storeLookup_none_of_lt (st : List (ℕ × Tensor)) (n : ℕ)
    (h : ∀ p ∈ st, p.1 < n) : storeLookup n st = none := by
  induction st with
  | nil => rfl
  | cons p rest ih =>
    obtain ⟨k, v⟩ := p
    have hk : k < n := h (k, v) (List.mem_cons_self _ _)
    have hne : ¬ n = k := by omega
    rw [storeLookup, if_neg hne]
    exact ih fun q hq => h q (List.mem_cons_of_mem _ hq)

/-- C5: sending a tensor and then retrieving its handle returns exactly the
value that was sent and removes the context's ownership of the handle; a
second retrieve of the same handle fails (`none`, the
`NotFoundError`/`OwnershipError`) rather than returning a value. -/
theorem send_retrieve_roundtrip (c : RemoteCtx) (t : Tensor) (hwf : c.wf) :
    (c.send t).1.retrieve (c.send t).2 = some (⟨c.store, c.next + 1⟩, t) ∧
    RemoteCtx.owns ⟨c.store, c.next + 1⟩ (c.send t).2 = false ∧
    RemoteCtx.retrieve ⟨c.store, c.next + 1⟩ (c.send t).2 = none := by
  have hnone : storeLookup c.next c.store = none :=
    storeLookup_none_of_lt c.store c.next hwf
  refine ⟨?_, ?_, ?_⟩
  · simp [RemoteCtx.send, RemoteCtx.retrieve, storeLookup, storeErase]
  · simp [RemoteCtx.send, RemoteCtx.owns, hnone]
  · simp [RemoteCtx.send, RemoteCtx.retrieve, hnone]

/-- Witness for C5: round trip of the tensor `[1, 2]` through an empty
context. -/
theorem send_retrieve_roundtrip_witness :
    (RemoteCtx.mk [] 0).wf ∧
    ((RemoteCtx.mk [] 0).send [1, 2]).1.retrieve ((RemoteCtx.mk [] 0).send [1, 2]).2 =
        some (⟨[], 1⟩, [1, 2]) ∧
    RemoteCtx.owns ⟨[], 1⟩ ((RemoteCtx.mk [] 0).send [1, 2]).2 = false ∧
    RemoteCtx.retrieve ⟨[], 1⟩ ((RemoteCtx.mk [] 0).send [1, 2]).2 = none := by
  have hwf : (RemoteCtx.mk [] 0).wf := by
    intro p hp
    simp at hp
  exact ⟨hwf, send_retrieve_roundtrip ⟨[], 0⟩ [1, 2] hwf⟩

/-! ## Action selection (`select_action`) -/

/-- Modelled from the spec: `apply` — `policy(state)` evaluated entirely
inside the remote context: the opaque forward `f` is applied to the owned
input and the result is stored under a fresh handle; no ownership crosses
the boundary. -/
def RemoteCtx.applyModel (c : RemoteCtx) (f : Tensor → Tensor) (h : ℕ) :
    Option (RemoteCtx × ℕ) :=
  match storeLookup h c.store with
  | some t => some (⟨(c.next, f t) :: c.store, c.next + 1⟩, c.next)
  | none => none

/-- A boundary crossing between the local and the remote context. -/
inductive Crossing
  | send
  | retrieve
  deriving DecidableEq

/-- The notebook's `select_action`, instrumented with the list of boundary
crossings it performs, in source order: `state = state.send(bob)`;
`probs = policy(state)` (remote apply, no crossing); `probs = probs.get()`;
sample an action, append its log-probability to the trajectory buffer;
`state.get()`.  `f` is the opaque policy forward and `samp` the categorical
sampler returning the sampled action index and its log-probability. -/
def select_action (f : Tensor → Tensor) (samp : Tensor → ℕ × ℚ)
    (c : RemoteCtx) (log_probs : List ℚ) (obs : Tensor) :
    Option (RemoteCtx × List ℚ × ℕ × List Crossing) :=
  let sres := c.send obs
  match sres.1.applyModel f sres.2 with
  | none => none
  | some (c2, hp) =>
    match c2.retrieve hp with
    | none => none
    | some (c3, probs) =>
      match c3.retrieve sres.2 with
      | none => none
      | some (c4, _) =>
        some (c4, log_probs ++ [(samp probs).2], (samp probs).1,
          [Crossing.send, Crossing.retrieve, Crossing.retrieve])

/-- An action-selection step always succeeds, restores the store to exactly
its previous contents (the observation and the distribution are both
retrieved), advances the handle counter by two and appends one
log-probability. -/
lemma select_action_total (f : Tensor → Tensor) (samp : Tensor → ℕ × ℚ)
    (c : RemoteCtx) (log_probs : List ℚ) (obs : Tensor) :
    select_action f samp c log_probs obs =
      some (⟨c.store, c.next + 2⟩, log_probs ++ [(samp (f obs)).2],
        (samp (f obs)).1, [Crossing.send, Crossing.retrieve, Crossing.retrieve]) := by
  simp [select_action, RemoteCtx.send, RemoteCtx.applyModel, RemoteCtx.retrieve,
    storeLookup, storeErase]

/-- C6 counterexample: a concrete action-selection step performs one send
and two retrieves — the second retrieve (`state.get()`) refutes "exactly
one crossing back in". -/
theorem select_action_not_single_retrieve :
    ((select_action id (fun _ => (0, 0)) ⟨[], 0⟩ [] [1]).map
        (fun r => ((r.2.2.2).count Crossing.send, (r.2.2.2).count Crossing.retrieve))) =
      some (1, 2) ∧ some ((1 : ℕ), (2 : ℕ)) ≠ some ((1 : ℕ), (1 : ℕ)) := by
  constructor
  · rw [select_action_total]
    rfl
  · simp

/-- C6 amended: every action-selection step performs exactly one send and
exactly two retrieves (the action distribution and the original observation
handle), and no other boundary crossing. -/
theorem select_action_crossings (f : Tensor → Tensor) (samp : Tensor → ℕ × ℚ)
    (c : RemoteCtx) (log_probs : List ℚ) (obs : Tensor)
    (c4 : RemoteCtx) (lps : List ℚ) (a : ℕ) (tr : List Crossing)
    (h : select_action f samp c log_probs obs = some (c4, lps, a, tr)) :
    tr.count Crossing.send = 1 ∧ tr.count Crossing.retrieve = 2 ∧ tr.length = 3 := by
  rw [select_action_total] at h
  have htr : tr = [Crossing.send, Crossing.retrieve, Crossing.retrieve] := by
    have hc := congrArg (fun o => (Option.map (fun r => r.2.2.2) o).getD []) h
    simpa using hc.symm
  subst htr
  exact ⟨rfl, rfl, rfl⟩

/-- Witness for C6 amended at a concrete step. -/
theorem select_action_crossings_witness :
    (select_action id (fun _ => (0, 0)) ⟨[], 0⟩ [] [1] =
      some (⟨[], 2⟩, [0], 0, [Crossing.send, Crossing.retrieve, Crossing.retrieve])) ∧
    ([Crossing.send, Crossing.retrieve, Crossing.retrieve].count Crossing.send = 1 ∧
     [Crossing.send, Crossing.retrieve, Crossing.retrieve].count Crossing.retrieve = 2 ∧
     [Crossing.send, Crossing.retrieve, Crossing.retrieve].length = 3) := by
  have h : select_action id (fun _ => (0, 0)) (⟨[], 0⟩ : RemoteCtx) [] [1] =
      some (⟨[], 2⟩, [0], 0, [Crossing.send, Crossing.retrieve, Crossing.retrieve]) := by
    rw [select_action_total]
    rfl
  exact ⟨h, select_action_crossings id (fun _ => (0, 0)) ⟨[], 0⟩ [] [1] ⟨[], 2⟩ [0] 0
    [Crossing.send, Crossing.retrieve, Crossing.retrieve] h⟩

/-! ## Trajectory buffer, policy update and training loop -/

/-- The trajectory buffer stored on the `Policy` object: log-probabilities
of the sampled actions and raw rewards of the current episode.  The network
parameters live in the opaque differentiable-computation collaborator; as a
unit they are the tensor sent to the remote context in `runTraining`. -/
structure Policy where
  episode_log_probs : List ℚ
  episode_raw_rewards : List ℚ
  deriving DecidableEq

/-- The effect of `update_policy` on the trajectory buffer: the surrogate
loss `[-lp * G' for lp, G' in zip(...)]` is materialized with `torch.cat`,
which raises on an empty list — the only exception this function can raise
in exact arithmetic (NaN values propagate silently through torch); the
numeric gradient step happens inside the opaque autograd collaborator; then
`del ...[:]` empties both buffer sequences.  `none` models the raised
exception, in which case the buffers keep their previous contents. -/
def update_policy (pol : Policy) : Option Policy :=
  if pol.episode_log_probs = [] ∨ pol.episode_raw_rewards = [] then none
  else some ⟨[], []⟩

/-- Result of the inner step loop of one episode. -/
inductive EpisodeResult
  | ok (c : RemoteCtx) (pol : Policy) (total : ℚ)
  | fail (c : RemoteCtx) (pol : Policy)
  deriving DecidableEq

/-- The inner `for step in range(maxSteps)` loop of the training cell:
select an action, step the environment (`env t = none` models `env.step`
raising), append the reward to the buffer and add it to `episode_rewards`,
and break on `done`.  `t` is the current step index, `fuel` the remaining
iterations of the `range`. -/
def episodeLoop (f : Tensor → Tensor) (samp : Tensor → ℕ × ℚ)
    (env : ℕ → Option (ℚ × Bool)) (obs : ℕ → Tensor) :
    ℕ → ℕ → RemoteCtx → Policy → ℚ → EpisodeResult
  | 0, _, c, pol, total => .ok c pol total
  | fuel + 1, t, c, pol, total =>
    match select_action f samp c pol.episode_log_probs (obs t) with
    | none => .fail c pol
    | some (c1, lps1, _a, _tr) =>
      match env t with
      | none => .fail c1 ⟨lps1, pol.episode_raw_rewards⟩
      | some (r, d) =>
        if d then .ok c1 ⟨lps1, pol.episode_raw_rewards ++ [r]⟩ (total + r)
        else episodeLoop f samp env obs fuel (t + 1) c1
          ⟨lps1, pol.episode_raw_rewards ++ [r]⟩ (total + r)

/-- Result of the outer episode loop. -/
inductive EpisodesResult
  | ok (c : RemoteCtx) (pol : Policy) (totals : List ℚ)
  | fail (c : RemoteCtx) (pol : Policy) (totals : List ℚ)
  deriving DecidableEq

/-- The outer `for episode in range(nEpisodes)` loop: run one episode,
append `episode_rewards` to `total_rewards`, then `update_policy()`; a
failure anywhere aborts the whole run (there is no handler). -/
def episodesLoop (f : Tensor → Tensor) (samp : Tensor → ℕ × ℚ)
    (env : ℕ → ℕ → Option (ℚ × Bool)) (obs : ℕ → ℕ → Tensor) (maxSteps : ℕ) :
    ℕ → ℕ → RemoteCtx → Policy → List ℚ → EpisodesResult
  | 0, _, c, pol, totals => .ok c pol totals
  | n + 1, e, c, pol, totals =>
    match episodeLoop f samp (env e) (obs e) maxSteps 0 c pol 0 with
    | .fail c1 pol1 => .fail c1 pol1 totals
    | .ok c1 pol1 total =>
      match update_policy pol1 with
      | none => .fail c1 pol1 (totals ++ [total])
      | some pol2 =>
        episodesLoop f samp env obs maxSteps n (e + 1) c1 pol2 (totals ++ [total])

/-- `np.max` of a nonempty list (numpy raises on an empty one): fold of
`max` over the list, starting from its head. -/
def listMax (xs : List ℚ) : ℚ := xs.foldl max (xs.headD 0)

/-- Final state of one training run. -/
structure RunOutcome where
  ctx : RemoteCtx
  pol : Policy
  totals : List ℚ
  clearedInvoked : Bool
  failed : Bool
  summary : Option (ℚ × ℚ)

/-- The whole training cell: `policy.send(bob)`, the episode loop,
`policy.get()`, `bob.clear_objects()`, and the printed summary
`(np.mean(total_rewards), np.max(total_rewards))`.  There is no
`try`/`finally` in the source: on any exception the run aborts where it is,
skipping the two cleanup lines (`clearedInvoked = false`). -/
def runTraining (f : Tensor → Tensor) (samp : Tensor → ℕ × ℚ)
    (env : ℕ → ℕ → Option (ℚ × Bool)) (obs : ℕ → ℕ → Tensor)
    (nEpisodes maxSteps : ℕ) (params : Tensor) : RunOutcome :=
  let sres := RemoteCtx.send ⟨[], 0⟩ params
  match episodesLoop f samp env obs maxSteps nEpisodes 0 sres.1 ⟨[], []⟩ [] with
  | .fail c pol totals => ⟨c, pol, totals, false, true, none⟩
  | .ok c pol totals =>
    match c.retrieve sres.2 with
    | none => ⟨c, pol, totals, false, true, none⟩
    | some (c1, _) =>
      ⟨c1.clear, pol, totals, true, false, some (listMean totals, listMax totals)⟩

/-- The rewards the environment trace yields in one episode, starting at
step `t` with `fuel` remaining iterations. -/
def episodeRewardList (env : ℕ → Option (ℚ × Bool)) : ℕ → ℕ → List ℚ
  | 0, _ => []
  | fuel + 1, t =>
    match env t with
    | none => []
    | some (r, d) => if d then [r] else r :: episodeRewardList env fuel (t + 1)

/-! ### Episode-level invariants -/

/-- When the environment never raises, the step loop always ends in `ok`:
the store is restored to its previous contents, the reward buffer is
extended by exactly the environment's reward trace, one log-probability is
recorded per step, and `episode_rewards` accumulates the trace's sum. -/
lemma episodeLoop_ok (f : Tensor → Tensor) (samp : Tensor → ℕ × ℚ)
    (env : ℕ → Option (ℚ × Bool)) (obs : ℕ → Tensor)
    (henv : ∀ t, (env t).isSome) :
    ∀ (fuel t : ℕ) (c : RemoteCtx) (pol : Policy) (total : ℚ),
      ∃ (lpsNew : List ℚ) (n2 : ℕ),
        episodeLoop f samp env obs fuel t c pol total =
          .ok ⟨c.store, n2⟩
            ⟨pol.episode_log_probs ++ lpsNew,
             pol.episode_raw_rewards ++ episodeRewardList env fuel t⟩
            (total + (episodeRewardList env fuel t).sum) ∧
        lpsNew.length = (episodeRewardList env fuel t).length := by
  intro fuel
  induction fuel with
  | zero =>
    intro t c pol total
    refine ⟨[], c.next, ?_, rfl⟩
    simp [episodeLoop, episodeRewardList]
  | succ fuel ih =>
    intro t c pol total
    obtain ⟨p, hp⟩ := Option.isSome_iff_exists.mp (henv t)
    obtain ⟨r, d⟩ := p
    cases d with
    | true =>
      refine ⟨[(samp (f (obs t))).2], c.next + 2, ?_, ?_⟩
      · simp [episodeLoop, select_action_total, hp, episodeRewardList]
      · simp [episodeRewardList, hp]
    | false =>
      obtain ⟨L2, n2, heq, hlen⟩ := ih (t + 1) ⟨c.store, c.next + 2⟩
        ⟨pol.episode_log_probs ++ [(samp (f (obs t))).2],
         pol.episode_raw_rewards ++ [r]⟩ (total + r)
      refine ⟨(samp (f (obs t))).2 :: L2, n2, ?_, ?_⟩
      · simp only [episodeLoop, select_action_total, hp]
        rw [heq]
        simp [episodeRewardList, hp, add_assoc]
      · simp [episodeRewardList, hp, hlen]

/-- With at least one step of fuel and a non-raising environment, at least
one reward is collected. -/
lemma episodeRewardList_ne_nil (env : ℕ → Option (ℚ × Bool))
    (henv : ∀ t, (env t).isSome) (fuel t : ℕ) (hf : 1 ≤ fuel) :
    episodeRewardList env fuel t ≠ [] := by
  cases fuel with
  | zero => omega
  | succ m =>
    obtain ⟨p, hp⟩ := Option.isSome_iff_exists.mp (henv t)
    obtain ⟨r, d⟩ := p
    cases d <;> simp [episodeRewardList, hp]

/-- C4: an episode starts with empty trajectory buffers (empty at program
start and, as proved here, emptied again by the update); at the moment
`update_policy` runs the two sequences have equal length, that length is
the number of environment steps taken, and after the update both sequences
are empty.  The update's only failure mode, `torch.cat` on an empty loss
list, cannot occur since the reward sequence is never empty, so the update
always reaches the `del` statements that clear the buffers. -/
theorem trajectory_buffer_lifecycle (f : Tensor → Tensor) (samp : Tensor → ℕ × ℚ)
    (env : ℕ → Option (ℚ × Bool)) (obs : ℕ → Tensor) (maxSteps : ℕ) (c : RemoteCtx)
    (henv : ∀ t, (env t).isSome) (hms : 1 ≤ maxSteps) :
    ∃ (c1 : RemoteCtx) (pol : Policy) (total : ℚ),
      episodeLoop f samp env obs maxSteps 0 c ⟨[], []⟩ 0 = .ok c1 pol total ∧
      pol.episode_log_probs.length = pol.episode_raw_rewards.length ∧
      pol.episode_raw_rewards.length = (episodeRewardList env maxSteps 0).length ∧
      update_policy pol = some ⟨[], []⟩ := by
  obtain ⟨lpsNew, n2, heq, hlen⟩ :=
    episodeLoop_ok f samp env obs henv maxSteps 0 c ⟨[], []⟩ 0
  have hne : episodeRewardList env maxSteps 0 ≠ [] :=
    episodeRewardList_ne_nil env henv maxSteps 0 hms
  refine ⟨_, _, _, heq, by simp [hlen], by simp, ?_⟩
  rw [update_policy, if_neg]
  intro hor
  rcases hor with hlps | hrws
  · simp only [List.nil_append] at hlps
    rw [hlps] at hlen
    exact hne (List.eq_nil_of_length_eq_zero hlen.symm)
  · simp only [List.nil_append] at hrws
    exact hne hrws

/-- Witness for C4: a three-step episode (the stub environment terminates
at step index 2) under the notebook's step limit 1000. -/
theorem trajectory_buffer_lifecycle_witness :
    (∀ t, ((fun u => some ((1 : ℚ), decide (2 ≤ u))) t).isSome) ∧ 1 ≤ 1000 ∧
    (∃ (c1 : RemoteCtx) (pol : Policy) (total : ℚ),
      episodeLoop id (fun _ => (0, 1/2)) (fun u => some ((1 : ℚ), decide (2 ≤ u)))
          (fun _ => [1]) 1000 0 ⟨[], 0⟩ ⟨[], []⟩ 0 = .ok c1 pol total ∧
      pol.episode_log_probs.length = pol.episode_raw_rewards.length ∧
      pol.episode_raw_rewards.length =
        (episodeRewardList (fun u => some ((1 : ℚ), decide (2 ≤ u))) 1000 0).length ∧
      update_policy pol = some ⟨[], []⟩) :=
  ⟨fun _ => rfl, by omega,
   trajectory_buffer_lifecycle id (fun _ => (0, 1/2)) _ _ 1000 ⟨[], 0⟩
     (fun _ => rfl) (by omega)⟩

/-- C10: each step's reward — the terminal step's included — is appended
before the `done` check, so at the moment `update_policy` runs the
raw-reward buffer is exactly the environment's reward trace: nonempty, the
episode total is its plain (non-discounted) sum including the terminal
reward, and the return normalizer therefore never receives an empty
sequence. -/
theorem terminal_reward_recorded (f : Tensor → Tensor) (samp : Tensor → ℕ × ℚ)
    (env : ℕ → Option (ℚ × Bool)) (obs : ℕ → Tensor) (maxSteps : ℕ)
    (c : RemoteCtx) (γ : ℚ)
    (henv : ∀ t, (env t).isSome) (hms : 1 ≤ maxSteps) :
    ∃ (c1 : RemoteCtx) (pol : Policy) (total : ℚ),
      episodeLoop f samp env obs maxSteps 0 c ⟨[], []⟩ 0 = .ok c1 pol total ∧
      pol.episode_raw_rewards = episodeRewardList env maxSteps 0 ∧
      pol.episode_raw_rewards ≠ [] ∧
      total = pol.episode_raw_rewards.sum ∧
      discountedRewards γ pol.episode_raw_rewards ≠ [] := by
  obtain ⟨lpsNew, n2, heq, hlen⟩ :=
    episodeLoop_ok f samp env obs henv maxSteps 0 c ⟨[], []⟩ 0
  have hne : episodeRewardList env maxSteps 0 ≠ [] :=
    episodeRewardList_ne_nil env henv maxSteps 0 hms
  refine ⟨_, _, _, heq, by simp, ?_, by simp, ?_⟩
  · simpa using hne
  · intro hnil
    have hzero := congrArg List.length hnil
    rw [length_discountedRewards] at hzero
    simp only [List.nil_append, List.length_nil] at hzero
    exact hne (List.eq_nil_of_length_eq_zero hzero)

/-- Witness for C10: a single-step episode (reward 1, done at once). -/
theorem terminal_reward_recorded_witness :
    (∀ t, ((fun (_ : ℕ) => some ((1 : ℚ), true)) t).isSome) ∧ 1 ≤ 1000 ∧
    (∃ (c1 : RemoteCtx) (pol : Policy) (total : ℚ),
      episodeLoop id (fun _ => (0, 1/2)) (fun _ => some ((1 : ℚ), true))
          (fun _ => [1]) 1000 0 ⟨[], 0⟩ ⟨[], []⟩ 0 = .ok c1 pol total ∧
      pol.episode_raw_rewards = episodeRewardList (fun _ => some ((1 : ℚ), true)) 1000 0 ∧
      pol.episode_raw_rewards ≠ [] ∧
      total = pol.episode_raw_rewards.sum ∧
      discountedRewards (19/20) pol.episode_raw_rewards ≠ []) :=
  ⟨fun _ => rfl, by omega,
   terminal_reward_recorded id (fun _ => (0, 1/2)) _ _ 1000 ⟨[], 0⟩ (19/20)
     (fun _ => rfl) (by omega)⟩

/-! ### Run-level invariants -/

/-- When the environment never raises and episodes run at least one step,
the episode loop completes every episode: the store is preserved, the
buffers end empty, and the totals list is extended by the per-episode
plain reward sums. -/
lemma episodesLoop_ok (f : Tensor → Tensor) (samp : Tensor → ℕ × ℚ)
    (env : ℕ → ℕ → Option (ℚ × Bool)) (obs : ℕ → ℕ → Tensor) (maxSteps : ℕ)
    (henv : ∀ e t, (env e t).isSome) (hms : 1 ≤ maxSteps) :
    ∀ (n e : ℕ) (c : RemoteCtx) (totals : List ℚ),
      ∃ n2, episodesLoop f samp env obs maxSteps n e c ⟨[], []⟩ totals =
        .ok ⟨c.store, n2⟩ ⟨[], []⟩
          (totals ++ (List.range' e n).map
            (fun i => (episodeRewardList (env i) maxSteps 0).sum)) := by
  intro n
  induction n with
  | zero =>
    intro e c totals
    refine ⟨c.next, ?_⟩
    simp [episodesLoop, List.range']
  | succ n ih =>
    intro e c totals
    obtain ⟨lpsNew, n1, heq, hlen⟩ :=
      episodeLoop_ok f samp (env e) (obs e) (henv e) maxSteps 0 c ⟨[], []⟩ 0
    have hne : episodeRewardList (env e) maxSteps 0 ≠ [] :=
      episodeRewardList_ne_nil (env e) (henv e) maxSteps 0 hms
    have hupd : update_policy
        ⟨(Policy.mk [] []).episode_log_probs ++ lpsNew,
         (Policy.mk [] []).episode_raw_rewards ++ episodeRewardList (env e) maxSteps 0⟩ =
        some ⟨[], []⟩ := by
      rw [update_policy, if_neg]
      intro hor
      rcases hor with hlps | hrws
      · simp only [List.nil_append] at hlps
        rw [hlps] at hlen
        exact hne (List.eq_nil_of_length_eq_zero hlen.symm)
      · simp only [List.nil_append] at hrws
        exact hne hrws
    obtain ⟨n2, heq2⟩ := ih (e + 1) ⟨c.store, n1⟩
      (totals ++ [0 + (episodeRewardList (env e) maxSteps 0).sum])
    refine ⟨n2, ?_⟩
    simp only [episodesLoop, heq, hupd]
    rw [heq2]
    simp [List.range'_succ]

/-- `runTraining` unfolded: convenient reduction of the definition. -/
lemma runTraining_eq (f : Tensor → Tensor) (samp : Tensor → ℕ × ℚ)
    (env : ℕ → ℕ → Option (ℚ × Bool)) (obs : ℕ → ℕ → Tensor)
    (nEpisodes maxSteps : ℕ) (params : Tensor) :
    runTraining f samp env obs nEpisodes maxSteps params =
      match episodesLoop f samp env obs maxSteps nEpisodes 0
          ⟨[(0, params)], 1⟩ ⟨[], []⟩ [] with
      | .fail c pol totals => ⟨c, pol, totals, false, true, none⟩
      | .ok c pol totals =>
        match c.retrieve 0 with
        | none => ⟨c, pol, totals, false, true, none⟩
        | some (c1, _) =>
          ⟨c1.clear, pol, totals, true, false,
            some (listMean totals, listMax totals)⟩ := rfl

/-- C7 amended: on the normal-completion exit path (`RunComplete`) the
policy is retrieved and `bob.clear_objects()` runs, leaving the context
owning zero tensors; a failure path aborts before the two cleanup lines
(exhibited by the counterexample below) because the source has no
`try`/`finally`. -/
theorem run_complete_cleanup (f : Tensor → Tensor) (samp : Tensor → ℕ × ℚ)
    (env : ℕ → ℕ → Option (ℚ × Bool)) (obs : ℕ → ℕ → Tensor)
    (nEpisodes maxSteps : ℕ) (params : Tensor)
    (henv : ∀ e t, (env e t).isSome) (hms : 1 ≤ maxSteps) :
    (runTraining f samp env obs nEpisodes maxSteps params).failed = false ∧
    (runTraining f samp env obs nEpisodes maxSteps params).clearedInvoked = true ∧
    (runTraining f samp env obs nEpisodes maxSteps params).ctx.count = 0 := by
  obtain ⟨n2, heq⟩ := episodesLoop_ok f samp env obs maxSteps henv hms
    nEpisodes 0 ⟨[(0, params)], 1⟩ []
  rw [runTraining_eq, heq]
  simp [RemoteCtx.retrieve, storeLookup, storeErase, RemoteCtx.clear, RemoteCtx.count]

/-- Witness for C7 amended: a one-episode, one-step run. -/
theorem run_complete_cleanup_witness :
    (∀ e t, ((fun (_ _ : ℕ) => some ((1 : ℚ), true)) e t).isSome) ∧ 1 ≤ 1 ∧
    ((runTraining id (fun _ => (0, 0)) (fun _ _ => some (1, true))
        (fun _ _ => [1]) 1 1 [3]).failed = false ∧
     (runTraining id (fun _ => (0, 0)) (fun _ _ => some (1, true))
        (fun _ _ => [1]) 1 1 [3]).clearedInvoked = true ∧
     (runTraining id (fun _ => (0, 0)) (fun _ _ => some (1, true))
        (fun _ _ => [1]) 1 1 [3]).ctx.count = 0) :=
  ⟨fun _ _ => rfl, le_refl 1,
   run_complete_cleanup id (fun _ => (0, 0)) _ _ 1 1 [3] (fun _ _ => rfl) (le_refl 1)⟩

/-- C7 counterexample: if the environment raises at the very first step,
the run aborts with the exception, `bob.clear_objects()` is never reached,
and the context still owns the policy (one tensor, not zero). -/
theorem run_failure_skips_cleanup :
    (runTraining id (fun _ => (0, 0)) (fun _ _ => none) (fun _ _ => [1])
        1 5 [3]).clearedInvoked = false ∧
    (runTraining id (fun _ => (0, 0)) (fun _ _ => none) (fun _ _ => [1])
        1 5 [3]).failed = true ∧
    (runTraining id (fun _ => (0, 0)) (fun _ _ => none) (fun _ _ => [1])
        1 5 [3]).ctx.count = 1 ∧
    (runTraining id (fun _ => (0, 0)) (fun _ _ => none) (fun _ _ => [1])
        1 5 [3]).ctx.count ≠ 0 :=
  ⟨rfl, rfl, rfl, by decide⟩

/-! ### Reported summary (C9) -/

lemma foldl_max_le (t : List ℚ) :
    ∀ a, a ≤ t.foldl max a ∧ ∀ x ∈ t, x ≤ t.foldl max a := by
  induction t with
  | nil =>
    intro a
    exact ⟨le_refl a, by simp⟩
  | cons b u ih =>
    intro a
    have h1 := ih (max a b)
    refine ⟨le_trans (le_max_left a b) h1.1, ?_⟩
    intro x hx
    rcases List.mem_cons.mp hx with hx | hx
    · subst hx
      exact le_trans (le_max_right a x) h1.1
    · exact h1.2 x hx

lemma foldl_max_mem (t : List ℚ) : ∀ a, t.foldl max a = a ∨ t.foldl max a ∈ t := by
  induction t with
  | nil =>
    intro a
    exact Or.inl rfl
  | cons b u ih =>
    intro a
    rcases ih (max a b) with h | h
    · rcases max_choice a b with hm | hm
      · exact Or.inl (by rw [List.foldl_cons, h, hm])
      · exact Or.inr (by rw [List.foldl_cons, h, hm]; exact List.mem_cons_self _ _)
    · exact Or.inr (List.mem_cons_of_mem _ (by rw [List.foldl_cons]; exact h))

/-- `listMax` of a nonempty list is a member and an upper bound: it is the
maximum in the `np.max` sense. -/
lemma listMax_spec (xs : List ℚ) (hne : xs ≠ []) :
    listMax xs ∈ xs ∧ ∀ x ∈ xs, x ≤ listMax xs := by
  cases xs with
  | nil => exact absurd rfl hne
  | cons a t =>
    have hred : listMax (a :: t) = t.foldl max a := by
      simp [listMax, List.foldl_cons, max_self]
    constructor
    · rw [hred]
      rcases foldl_max_mem t a with h | h
      · rw [h]; exact List.mem_cons_self _ _
      · exact List.mem_cons_of_mem _ h
    · intro x hx
      rw [hred]
      rcases List.mem_cons.mp hx with hx | hx
      · subst hx; exact (foldl_max_le t x).1
      · exact (foldl_max_le t a).2 x hx

/-- C9: for a completed run the reported summary is exactly
`(np.mean(total_rewards), np.max(total_rewards))`: the recorded totals are
the per-episode plain (non-discounted) sums of the raw rewards, the first
component is their arithmetic mean `sum/length`, and the second is a true
maximum (a member of the list bounding every entry). -/
theorem run_summary_mean_max (f : Tensor → Tensor) (samp : Tensor → ℕ × ℚ)
    (env : ℕ → ℕ → Option (ℚ × Bool)) (obs : ℕ → ℕ → Tensor)
    (nEpisodes maxSteps : ℕ) (params : Tensor)
    (henv : ∀ e t, (env e t).isSome) (hms : 1 ≤ maxSteps) (hn : 1 ≤ nEpisodes) :
    (runTraining f samp env obs nEpisodes maxSteps params).failed = false ∧
    (runTraining f samp env obs nEpisodes maxSteps params).totals =
      (List.range nEpisodes).map (fun e => (episodeRewardList (env e) maxSteps 0).sum) ∧
    (runTraining f samp env obs nEpisodes maxSteps params).summary =
      some ((runTraining f samp env obs nEpisodes maxSteps params).totals.sum /
          ((runTraining f samp env obs nEpisodes maxSteps params).totals.length : ℚ),
        listMax (runTraining f samp env obs nEpisodes maxSteps params).totals) ∧
    listMax (runTraining f samp env obs nEpisodes maxSteps params).totals ∈
      (runTraining f samp env obs nEpisodes maxSteps params).totals ∧
    ∀ x ∈ (runTraining f samp env obs nEpisodes maxSteps params).totals,
      x ≤ listMax (runTraining f samp env obs nEpisodes maxSteps params).totals := by
  obtain ⟨n2, heq⟩ := episodesLoop_ok f samp env obs maxSteps henv hms
    nEpisodes 0 ⟨[(0, params)], 1⟩ []
  have hne : ((List.range' 0 nEpisodes).map
      (fun i => (episodeRewardList (env i) maxSteps 0).sum)) ≠ [] := by
    intro h
    have hlen := congrArg List.length h
    simp [List.length_range'] at hlen
    omega
  obtain ⟨hmem, hle⟩ := listMax_spec _ hne
  rw [runTraining_eq, heq]
  refine ⟨?_, ?_, ?_, ?_, ?_⟩
  · simp [RemoteCtx.retrieve, storeLookup, storeErase]
  · simp [RemoteCtx.retrieve, storeLookup, storeErase, List.range_eq_range']
  · simp [RemoteCtx.retrieve, storeLookup, storeErase, listMean]
  · simpa [RemoteCtx.retrieve, storeLookup, storeErase] using hmem
  · simpa [RemoteCtx.retrieve, storeLookup, storeErase] using hle

/-- Witness for C9: a two-episode run over a stub environment giving
reward 1 and terminating immediately. -/
theorem run_summary_mean_max_witness :
    (∀ e t, ((fun (_ _ : ℕ) => some ((1 : ℚ), true)) e t).isSome) ∧ 1 ≤ 3 ∧ 1 ≤ 2 ∧
    ((runTraining id (fun _ => (0, 0)) (fun _ _ => some (1, true))
        (fun _ _ => [5]) 2 3 [7]).failed = false ∧
     (runTraining id (fun _ => (0, 0)) (fun _ _ => some (1, true))
        (fun _ _ => [5]) 2 3 [7]).totals =
       (List.range 2).map
         (fun e => (episodeRewardList ((fun (_ _ : ℕ) => some ((1 : ℚ), true)) e) 3 0).sum) ∧
     (runTraining id (fun _ => (0, 0)) (fun _ _ => some (1, true))
        (fun _ _ => [5]) 2 3 [7]).summary =
       some ((runTraining id (fun _ => (0, 0)) (fun _ _ => some (1, true))
            (fun _ _ => [5]) 2 3 [7]).totals.sum /
          (((runTraining id (fun _ => (0, 0)) (fun _ _ => some (1, true))
            (fun _ _ => [5]) 2 3 [7]).totals.length : ℕ) : ℚ),
        listMax (runTraining id (fun _ => (0, 0)) (fun _ _ => some (1, true))
            (fun _ _ => [5]) 2 3 [7]).totals) ∧
     listMax (runTraining id (fun _ => (0, 0)) (fun _ _ => some (1, true))
        (fun _ _ => [5]) 2 3 [7]).totals ∈
       (runTraining id (fun _ => (0, 0)) (fun _ _ => some (1, true))
        (fun _ _ => [5]) 2 3 [7]).totals ∧
     ∀ x ∈ (runTraining id (fun _ => (0, 0)) (fun _ _ => some (1, true))
        (fun _ _ => [5]) 2 3 [7]).totals,
       x ≤ listMax (runTraining id (fun _ => (0, 0)) (fun _ _ => some (1, true))
        (fun _ _ => [5]) 2 3 [7]).totals) :=
  ⟨fun _ _ => rfl, by omega, by omega,
   run_summary_mean_max id (fun _ => (0, 0)) _ _ 2 3 [7]
     (fun _ _ => rfl) (by omega) (by omega)⟩
